import Mathlib

/-!
Verification of the `cpp-simple-vector` repository: a shallow embedding of
`ArrayPtr<Type>` (array_ptr.h) and `SimpleVector<Type>` (simple_vector.h)
together with proofs about the embedded operations.

Machine memory is modelled by values: a raw owned array (`Type*` from
`new Type[n]()`) becomes an `Option (List T)` where `none` is the null
pointer and `some buf` is an allocation whose cells hold `buf`.  Iterator
arguments (`ConstIterator pos`) become the index `pos - begin()`.
-/

namespace CppSimpleVector

/-- Model of `ArrayPtr<Type>` from array_ptr.h: a sole-owning handle whose
field `raw_ptr_` is `none` for `nullptr` and `some buf` for an owned
allocation with contents `buf`. -/
structure ArrayPtr (T : Type) where
  raw_ptr_ : Option (List T)
  deriving Repr, DecidableEq

namespace ArrayPtr

/-- `explicit ArrayPtr(size_t size)`: `raw_ptr_ = size == 0 ? nullptr :
new Type[size]()`; a nonzero size allocates `size` value-initialized
(default) elements. -/
def ofSize (T : Type) [Inhabited T] (size : Nat) : ArrayPtr T :=
  ⟨if size = 0 then none else some (List.replicate size default)⟩

/-- `Release()`: returns the raw handle and resets `raw_ptr_` to null
without freeing memory.  Result: (extracted handle, state afterwards). -/
def Release (p : ArrayPtr T) : Option (List T) × ArrayPtr T :=
  (p.raw_ptr_, ⟨none⟩)

/-- The destructor `~ArrayPtr() { delete[] raw_ptr_; }`: the list of
allocations it frees.  `delete[]` on a null pointer frees nothing. -/
def destroyFrees (p : ArrayPtr T) : List (List T) :=
  match p.raw_ptr_ with
  | none => []
  | some a => [a]

/-- `Get()`: the raw handle, ownership untouched. -/
def Get (p : ArrayPtr T) : Option (List T) := p.raw_ptr_

/-- `swap(ArrayPtr& other)`: exchanges the two handles.  Result: (this
afterwards, other afterwards). -/
def swap (p other : ArrayPtr T) : ArrayPtr T × ArrayPtr T :=
  (⟨other.raw_ptr_⟩, ⟨p.raw_ptr_⟩)

end ArrayPtr

/-- Model of `SimpleVector<Type>` from simple_vector.h: the owned buffer
`ptr_` (as in `ArrayPtr`, `none` is null), the logical size `size_` and the
recorded capacity `capacity_`. -/
structure SimpleVector (T : Type) where
  ptr_ : Option (List T)
  size_ : Nat
  capacity_ : Nat
  deriving Repr, DecidableEq

namespace SimpleVector

variable {T : Type} [Inhabited T]

/-- The contents of the physical buffer (`[]` when `ptr_` is null). -/
def buf (s : SimpleVector T) : List T := s.ptr_.getD []

/-- The logical element sequence `[begin(), end())`, i.e. the first
`size_` cells of the buffer. -/
def logical (s : SimpleVector T) : List T := (buf s).take s.size_

/-- `GetSize()`. -/
def GetSize (s : SimpleVector T) : Nat := s.size_

/-- `GetCapacity()`. -/
def GetCapacity (s : SimpleVector T) : Nat := s.capacity_

/-- `IsEmpty()`. -/
def IsEmpty (s : SimpleVector T) : Bool := s.size_ == 0

/-- `SimpleVector() noexcept = default`: null buffer, size 0, capacity 0. -/
def empty (T : Type) : SimpleVector T := ⟨none, 0, 0⟩

/-- `explicit SimpleVector(size_t size)`: allocates `ArrayPtr<Type>(size)`
(default-valued cells, null when `size == 0`), swaps it in, sets
`size_ = capacity_ = size`. -/
def ofSize (size : Nat) : SimpleVector T :=
  ⟨if size = 0 then none else some (List.replicate size default), size, size⟩

/-- `SimpleVector(size_t size, const Type& value)`: allocates `size` cells
and assigns `value` to each, `size_ = capacity_ = size`. -/
def ofSizeValue (size : Nat) (value : T) : SimpleVector T :=
  ⟨if size = 0 then none else some (List.replicate size value), size, size⟩

/-- `SimpleVector(std::initializer_list<Type> init)`: allocates
`init.size()` cells and copies the listed values in order,
`size_ = capacity_ = init.size()`. -/
def ofList (init : List T) : SimpleVector T :=
  ⟨if init.length = 0 then none else some init, init.length, init.length⟩

/-- `Reserve(size_t new_capacity)`: when `new_capacity > capacity_`,
allocates a fresh buffer of exactly `new_capacity` default-valued cells,
moves the logical elements `[begin(), end())` into its front, swaps it in
and records the new capacity; otherwise does nothing. -/
def Reserve (s : SimpleVector T) (new_capacity : Nat) : SimpleVector T :=
  if s.capacity_ < new_capacity then
    { ptr_ := some ((buf s).take s.size_ ++
        List.replicate (new_capacity - s.size_) default),
      size_ := s.size_,
      capacity_ := new_capacity }
  else s

/-- The growth step shared verbatim by `PushBack` and `Insert`:
`if (size_ == capacity_) Reserve(capacity_ == 0 ? 1 : capacity_ * 2);`. -/
def grow (s : SimpleVector T) : SimpleVector T :=
  if s.size_ = s.capacity_ then
    s.Reserve (if s.capacity_ = 0 then 1 else s.capacity_ * 2)
  else s

/-- `PushBack(value)` (copy and move overloads agree on the state): grows
via `Reserve(capacity_ == 0 ? 1 : capacity_ * 2)` when `size_ ==
capacity_`, then `ptr_[size_++] = value`. -/
def PushBack (s : SimpleVector T) (value : T) : SimpleVector T :=
  let s := grow s
  { s with ptr_ := some ((buf s).set s.size_ value), size_ := s.size_ + 1 }

/-- `Resize(size_t new_size)`: reserves `new_size` exactly when it exceeds
`capacity_`; when `new_size > size_`, assigns a default-constructed value
to every cell in `[end(), ptr_.Get() + new_size)`; finally sets
`size_ = new_size`. -/
def Resize (s : SimpleVector T) (new_size : Nat) : SimpleVector T :=
  let s := if s.capacity_ < new_size then s.Reserve new_size else s
  let s := if s.size_ < new_size then
    { s with ptr_ := some ((buf s).take s.size_ ++
        List.replicate (new_size - s.size_) default ++ (buf s).drop new_size) }
    else s
  { s with size_ := new_size }

/-- `PopBack()`: asserts `size_ != 0`, then `Resize(size_ - 1)`. -/
def PopBack (s : SimpleVector T) : SimpleVector T := s.Resize (s.size_ - 1)

/-- `Insert(ConstIterator pos, value)` at index `pos = pos - begin()`
(copy and move overloads agree on the state): grows by the doubling policy
when full, increments `size_`, then `std::copy_backward(begin() + pos,
end() - 1, end())` shifts the cells `[pos, old size)` one slot right, and
the vacated cell `pos` receives `value`.  Cells past the old end are
untouched. -/
def Insert (s : SimpleVector T) (pos : Nat) (value : T) : SimpleVector T :=
  let n := s.size_
  let s := grow s
  { s with
    ptr_ := some ((buf s).take pos ++ value ::
      ((buf s).drop pos).take (n - pos) ++ (buf s).drop (n + 1)),
    size_ := n + 1 }

/-- `Erase(ConstIterator pos)` at index `pos = pos - begin()`:
`std::move(pos + 1, end(), pos)` shifts the cells `[pos + 1, size_)` one
slot left, then decrements `size_`.  The cell at `size_ - 1` keeps its old
value (it is moved-from but physically present), cells from the old
`size_` on are untouched. -/
def Erase (s : SimpleVector T) (pos : Nat) : SimpleVector T :=
  let n := s.size_
  { s with
    ptr_ := some ((buf s).take pos ++
      ((buf s).drop (pos + 1)).take (n - 1 - pos) ++ (buf s).drop (n - 1)),
    size_ := n - 1 }

/-- `Clear() noexcept`: `size_ = 0`, buffer and capacity untouched. -/
def Clear (s : SimpleVector T) : SimpleVector T := { s with size_ := 0 }

/-- `swap(SimpleVector& sv) noexcept`: exchanges buffer, size and
capacity.  Result: (this afterwards, sv afterwards). -/
def swap (s sv : SimpleVector T) : SimpleVector T × SimpleVector T :=
  (⟨sv.ptr_, sv.size_, sv.capacity_⟩, ⟨s.ptr_, s.size_, s.capacity_⟩)

/-- `operator[](size_t index)`: unchecked read of `ptr_[index]`
(precondition `index < size_`, asserted in the source). -/
def idx (s : SimpleVector T) (index : Nat) : T := (buf s).getD index default

/-- `At(size_t index)`: throws `std::out_of_range("Index >= size")` when
`index >= size_`, otherwise returns `ptr_[index]`.  `At` only reads the
vector. -/
def At (s : SimpleVector T) (index : Nat) : Except String T :=
  if s.size_ ≤ index then .error "Index >= size" else .ok ((buf s).getD index default)

/-- The buffer written by the copy constructor and copy assignment: a
fresh allocation of `sv.size_` default cells receives
`std::copy(sv.begin(), sv.end(), ...)`, i.e. the logical sequence at its
front. -/
def copiedBuf (sv : SimpleVector T) : List T :=
  logical sv ++ List.replicate (sv.size_ - (logical sv).length) default

/-- `SimpleVector(const SimpleVector& sv)`: allocates `ArrayPtr(sv.size_)`
(null when `sv.size_ == 0`), copies `[sv.begin(), sv.end())` into it, sets
`size_ = sv.size_` and `capacity_ = sv.size_`. -/
def copyCtor (sv : SimpleVector T) : SimpleVector T :=
  ⟨if sv.size_ = 0 then none else some (copiedBuf sv), sv.size_, sv.size_⟩

/-- `operator=(const SimpleVector& rhs)`: builds the same fresh buffer as
the copy constructor, then swaps it in and sets `size_ = capacity_ =
rhs.size_`.  Every read of `rhs` happens before the swap, so the result
does not depend on the left-hand side (which also makes `v = v`
well-defined). -/
def copyAssign (_lhs rhs : SimpleVector T) : SimpleVector T :=
  ⟨if rhs.size_ = 0 then none else some (copiedBuf rhs), rhs.size_, rhs.size_⟩

/-- `SimpleVector(SimpleVector&& sv)`: `ptr_.swap(sv.ptr_)` hands the
buffer to the new object (the source gets the new object's null buffer);
`size_ = std::exchange(sv.size_, 0)` copies the source size and zeroes it;
`capacity_ = std::exchange(sv.size_, 0)` then reads the ALREADY ZEROED
`sv.size_` — so the destination capacity is 0 and `sv.capacity_` is never
written.  Result: (constructed object, moved-from source). -/
def moveCtor (sv : SimpleVector T) : SimpleVector T × SimpleVector T :=
  (⟨sv.ptr_, sv.size_, 0⟩, ⟨none, 0, sv.capacity_⟩)

/-- `operator=(SimpleVector&& rhs)`: `ptr_.swap(rhs.ptr_)` exchanges the
buffers, then the same two `std::exchange(rhs.size_, 0)` lines as the move
constructor run: the destination gets `size_ = rhs.size_` and
`capacity_ = 0`, the source gets the old left-hand buffer, `size_ = 0` and
its `capacity_` untouched.  Result: (assigned-to object, moved-from
source). -/
def moveAssign (lhs rhs : SimpleVector T) : SimpleVector T × SimpleVector T :=
  (⟨rhs.ptr_, rhs.size_, 0⟩, ⟨lhs.ptr_, 0, rhs.capacity_⟩)

/-- Well-formedness of a vector state: the allocated buffer has exactly
`capacity_` cells and the logical size fits in it.  Every constructor
establishes this and every operation except move preserves it. -/
def WF (s : SimpleVector T) : Prop :=
  (buf s).length = s.capacity_ ∧ s.size_ ≤ s.capacity_

/-- `k` successive `PushBack(v)` calls on a default-constructed vector. -/
def pushN (v : T) : Nat → SimpleVector T
  | 0 => empty T
  | k + 1 => (pushN v k).PushBack v

/-- `std::lexicographical_compare(f1, l1, f2, l2)` on the two element
ranges: step while both ranges are nonempty, deciding on the first pair
ordered by `<` either way; a range that runs out first is smaller. -/
def lexLt [LT T] [DecidableRel (fun a b : T => a < b)] : List T → List T → Bool
  | _, [] => false
  | [], _ :: _ => true
  | a :: as, b :: bs => if a < b then true else if b < a then false else lexLt as bs

/-- `operator==`: same address (which in a value model implies equal
fields) or same size and `std::equal` over the two logical ranges. -/
def eqOp [DecidableEq T] (lhs rhs : SimpleVector T) : Bool :=
  lhs.GetSize == rhs.GetSize && decide (logical lhs = logical rhs)

/-- `operator!=`: `!(lhs == rhs)`. -/
def neOp [DecidableEq T] (lhs rhs : SimpleVector T) : Bool := !(eqOp lhs rhs)

/-- `operator<`: `std::lexicographical_compare` over the logical ranges. -/
def ltOp [LT T] [DecidableRel (fun a b : T => a < b)]
    (lhs rhs : SimpleVector T) : Bool :=
  lexLt (logical lhs) (logical rhs)

/-- `operator<=`: `!(rhs < lhs)`. -/
def leOp [LT T] [DecidableRel (fun a b : T => a < b)]
    (lhs rhs : SimpleVector T) : Bool := !(ltOp rhs lhs)

/-- `operator>`: `!(lhs <= rhs)`. -/
def gtOp [LT T] [DecidableRel (fun a b : T => a < b)]
    (lhs rhs : SimpleVector T) : Bool := !(leOp lhs rhs)

/-- `operator>=`: `!(lhs < rhs)`. -/
def geOp [LT T] [DecidableRel (fun a b : T => a < b)]
    (lhs rhs : SimpleVector T) : Bool := !(ltOp lhs rhs)

end SimpleVector

end CppSimpleVector

namespace CppSimpleVector

namespace SimpleVector

variable {T : Type}

theorem logical_length (s : SimpleVector T) (h : s.WF) :
    (logical s).length = s.size_ := by
  obtain ⟨h1, h2⟩ := h
  simp only [logical, List.length_take]
  omega

theorem WF_ofList (l : List T) : (ofList (T := T) l).WF := by
  constructor <;> cases l <;> simp [ofList, buf]

theorem Reserve_size_eq [Inhabited T] (s : SimpleVector T) (nc : Nat) :
    (s.Reserve nc).size_ = s.size_ := by
  unfold Reserve
  split <;> rfl

theorem Reserve_noop [Inhabited T] (s : SimpleVector T) (nc : Nat) (h : nc ≤ s.capacity_) :
    s.Reserve nc = s := by
  unfold Reserve
  rw [if_neg (by omega)]

theorem Reserve_spec [Inhabited T] (s : SimpleVector T) (nc : Nat) (h : s.WF)
    (hlt : s.capacity_ < nc) :
    (s.Reserve nc).size_ = s.size_ ∧
    (s.Reserve nc).capacity_ = nc ∧
    logical (s.Reserve nc) = logical s ∧
    (s.Reserve nc).WF := by
  obtain ⟨h1, h2⟩ := h
  unfold Reserve
  rw [if_pos hlt]
  refine ⟨rfl, rfl, ?_, ?_, ?_⟩
  · show (((buf s).take s.size_ ++ List.replicate (nc - s.size_) default).take
      s.size_ : List T) = logical s
    rw [List.take_append_eq_append_take, List.take_take]
    simp only [logical, List.length_take]
    have hmin : min s.size_ s.size_ = s.size_ := by omega
    have hz : s.size_ - min s.size_ (buf s).length = 0 := by omega
    rw [hmin, hz]
    simp
  · show (((buf s).take s.size_ ++ List.replicate (nc - s.size_) default).length) = nc
    simp only [List.length_append, List.length_take, List.length_replicate]
    omega
  · show s.size_ ≤ nc
    omega

theorem grow_size_eq [Inhabited T] (s : SimpleVector T) : (grow s).size_ = s.size_ := by
  unfold grow
  split
  · exact Reserve_size_eq s _
  · rfl

theorem grow_capacity_eq [Inhabited T] (s : SimpleVector T) :
    (grow s).capacity_ =
      if s.size_ = s.capacity_ then
        (if s.capacity_ = 0 then 1 else s.capacity_ * 2)
      else s.capacity_ := by
  unfold grow Reserve
  split
  · rw [if_pos (by split <;> omega)]
  · rfl

theorem grow_spec [Inhabited T] (s : SimpleVector T) (h : s.WF) :
    (grow s).size_ = s.size_ ∧
    s.size_ + 1 ≤ (grow s).capacity_ ∧
    logical (grow s) = logical s ∧
    (grow s).WF := by
  unfold grow
  split
  case isTrue heq =>
    have hlt : s.capacity_ < (if s.capacity_ = 0 then 1 else s.capacity_ * 2) := by
      split <;> omega
    obtain ⟨r1, r2, r3, r4⟩ := Reserve_spec s _ h hlt
    refine ⟨r1, ?_, r3, r4⟩
    rw [r2]
    split <;> omega
  case isFalse hne =>
    obtain ⟨h1, h2⟩ := h
    exact ⟨rfl, by omega, rfl, h1, h2⟩

theorem take_set_succ (l : List T) (i : Nat) (v : T) (h : i < l.length) :
    (l.set i v).take (i + 1) = l.take i ++ [v] := by
  induction l generalizing i with
  | nil => simp at h
  | cons a as ih =>
    cases i with
    | zero => simp
    | succ n =>
      simp only [List.set_cons_succ, List.take_succ_cons, List.cons_append,
        List.cons.injEq, true_and]
      exact ih n (by simpa using h)

theorem PushBack_spec [Inhabited T] (s : SimpleVector T) (v : T) (h : s.WF) :
    logical (s.PushBack v) = logical s ++ [v] ∧
    (s.PushBack v).size_ = s.size_ + 1 ∧
    (s.PushBack v).WF := by
  obtain ⟨g1, g2, g3, g4⟩ := grow_spec s h
  obtain ⟨w1, w2⟩ := g4
  have hlen : (grow s).size_ < (buf (grow s)).length := by omega
  refine ⟨?_, by simp [PushBack, g1], ?_, ?_⟩
  · show ((buf (grow s)).set (grow s).size_ v).take ((grow s).size_ + 1)
      = logical s ++ [v]
    rw [take_set_succ _ _ _ hlen]
    rw [← g3]
    rfl
  · show ((buf (grow s)).set (grow s).size_ v).length = (grow s).capacity_
    simpa using w1
  · show (grow s).size_ + 1 ≤ (grow s).capacity_
    omega

theorem copiedBuf_eq [Inhabited T] (s : SimpleVector T) (h : s.WF) :
    copiedBuf s = logical s := by
  unfold copiedBuf
  rw [logical_length s h]
  simp

theorem copyCtor_spec [Inhabited T] (s : SimpleVector T) (h : s.WF) :
    logical (copyCtor s) = logical s ∧
    (copyCtor s).size_ = s.size_ ∧
    (copyCtor s).capacity_ = s.size_ ∧
    (copyCtor s).WF := by
  have hbuf : buf (copyCtor s) = if s.size_ = 0 then [] else logical s := by
    unfold copyCtor buf
    split
    · rfl
    · simp only [Option.getD_some]
      exact copiedBuf_eq s h
  refine ⟨?_, rfl, rfl, ?_, ?_⟩
  · show (buf (copyCtor s)).take s.size_ = logical s
    rw [hbuf]
    split
    case isTrue h0 =>
      have : (logical s).length = 0 := by rw [logical_length s h, h0]
      simp [List.eq_nil_of_length_eq_zero this]
    case isFalse h0 =>
      conv in (logical s).take s.size_ => rw [← logical_length s h]
      exact List.take_length _
  · show (buf (copyCtor s)).length = s.size_
    rw [hbuf]
    split
    case isTrue h0 => simp [h0]
    case isFalse h0 => exact logical_length s h
  · exact Nat.le_refl _

/-- C1 (counterexample): for `a = {1,2,3}` (size 3, capacity 3), move
construction does NOT give the destination capacity 3 with the source at
capacity 0: the destination capacity is 0 and the source keeps capacity 3,
because `capacity_ = std::exchange(sv.size_, 0)` reads the source size
after the previous line already zeroed it, and never touches
`sv.capacity_`. -/
theorem C1_move_claim_fails_on_123 :
    ¬ (logical (moveCtor (ofList ([1, 2, 3] : List Int))).1 = [1, 2, 3] ∧
       (moveCtor (ofList ([1, 2, 3] : List Int))).1.GetSize = 3 ∧
       (moveCtor (ofList ([1, 2, 3] : List Int))).1.GetCapacity = 3 ∧
       (moveCtor (ofList ([1, 2, 3] : List Int))).2.GetSize = 0 ∧
       (moveCtor (ofList ([1, 2, 3] : List Int))).2.GetCapacity = 0) := by
  decide

/-- C1 (amended): move construction and move assignment hand the buffer to
the destination, which holds the source's elements with the source's size;
but the destination's capacity field becomes 0 (it is assigned from the
already-zeroed source size), and the moved-from source ends with size 0
and its capacity field UNCHANGED (after move construction its buffer is
null; after move assignment it holds the destination's old buffer). -/
theorem C1_move_transfers_buffer [Inhabited T]
    (sv lhs rhs : SimpleVector T) :
    logical (moveCtor sv).1 = logical sv ∧
    (moveCtor sv).1.GetSize = sv.GetSize ∧
    (moveCtor sv).1.GetCapacity = 0 ∧
    (moveCtor sv).2.ptr_ = none ∧
    (moveCtor sv).2.GetSize = 0 ∧
    (moveCtor sv).2.GetCapacity = sv.GetCapacity ∧
    logical (moveAssign lhs rhs).1 = logical rhs ∧
    (moveAssign lhs rhs).1.GetSize = rhs.GetSize ∧
    (moveAssign lhs rhs).1.GetCapacity = 0 ∧
    (moveAssign lhs rhs).2.ptr_ = lhs.ptr_ ∧
    (moveAssign lhs rhs).2.GetSize = 0 ∧
    (moveAssign lhs rhs).2.GetCapacity = rhs.GetCapacity :=
  ⟨rfl, rfl, rfl, rfl, rfl, rfl, rfl, rfl, rfl, rfl, rfl, rfl⟩

/-- C2: evaluation at the failing input.  Move-constructing from
`SimpleVector<int> a(1)` leaves the destination with `size_ == 1` but
`capacity_ == 0`, so the invariant `size <= capacity` is violated by a
container reachable through public operations (the spec-stated invariant
is right; the move code's second `std::exchange(sv.size_, 0)` is the
slip). -/
theorem C2_invariant_broken_by_move :
    (moveCtor (ofSize 1 : SimpleVector Int)).1.GetCapacity
      < (moveCtor (ofSize 1 : SimpleVector Int)).1.GetSize ∧
    ¬ (moveCtor (ofSize 1 : SimpleVector Int)).1.WF := by
  constructor
  · decide
  · intro hwf
    exact absurd hwf.2 (by decide)

/-- C5: `At(i)` returns the out-of-range error exactly when `i ≥ size`,
and on `i < size` it yields the same element as the unchecked
`operator[](i)`; `At` does not mutate the vector (it is modelled as a pure
read). -/
theorem C5_at_checked_access [Inhabited T] (s : SimpleVector T) (i : Nat) :
    ((∃ e, s.At i = .error e) ↔ s.GetSize ≤ i) ∧
    (i < s.GetSize → s.At i = .ok (s.idx i)) := by
  unfold At idx GetSize
  constructor
  · constructor
    · rintro ⟨e, he⟩
      by_contra hlt
      rw [if_neg (by omega)] at he
      exact Except.noConfusion he
    · intro hle
      rw [if_pos hle]
      exact ⟨_, rfl⟩
  · intro hlt
    rw [if_neg (by omega)]

/-- C5 witness: the theorem applied to the vector `{10, 20}` at index 1. -/
theorem C5_at_checked_access_witness :
    ((∃ e, (ofList ([10, 20] : List Int)).At 1 = .error e) ↔
      (ofList ([10, 20] : List Int)).GetSize ≤ 1) ∧
    (1 < (ofList ([10, 20] : List Int)).GetSize →
      (ofList ([10, 20] : List Int)).At 1 = .ok ((ofList ([10, 20] : List Int)).idx 1)) :=
  C5_at_checked_access (ofList [10, 20]) 1

/-- C10: self copy-assignment `v = v` preserves the logical sequence and
the size, and leaves capacity equal to size: the replacement buffer is
fully filled from `rhs` before `ptr_.swap(tmp)` retires the old buffer. -/
theorem C10_self_assignment_safe [Inhabited T] (v : SimpleVector T) (h : v.WF) :
    logical (copyAssign v v) = logical v ∧
    (copyAssign v v).GetSize = v.GetSize ∧
    (copyAssign v v).GetCapacity = v.GetSize := by
  have heq : copyAssign v v = copyCtor v := rfl
  rw [heq]
  obtain ⟨c1, c2, c3, _⟩ := copyCtor_spec v h
  exact ⟨c1, c2, c3⟩

theorem pushN_state [Inhabited T] (v : T) (k : Nat) (hk : 1 ≤ k) :
    (pushN v k).size_ = k ∧ (pushN v k).capacity_ = 2 ^ Nat.clog 2 k := by
  induction k with
  | zero => omega
  | succ k ih =>
    by_cases hk0 : k = 0
    · subst hk0
      rw [Nat.clog_one_right, pow_zero]
      constructor
      · show ((pushN v 0).PushBack v).size_ = 1
        simp [pushN, PushBack, grow, Reserve, empty]
      · show ((pushN v 0).PushBack v).capacity_ = 1
        simp [pushN, PushBack, grow, Reserve, empty]
    · have hk1 : 1 ≤ k := by omega
      obtain ⟨ihs, ihc⟩ := ih hk1
      have hb : (1 : Nat) < 2 := by omega
      have hk2m : k ≤ 2 ^ Nat.clog 2 k := Nat.le_pow_clog hb k
      have hsize : (pushN v (k + 1)).size_ = k + 1 := by
        show ((pushN v k).PushBack v).size_ = k + 1
        simp [PushBack, grow_size_eq, ihs]
      refine ⟨hsize, ?_⟩
      show ((pushN v k).PushBack v).capacity_ = 2 ^ Nat.clog 2 (k + 1)
      have hcap : ((pushN v k).PushBack v).capacity_
          = (grow (pushN v k)).capacity_ := rfl
      rw [hcap, grow_capacity_eq, ihs, ihc]
      by_cases hfull : k = 2 ^ Nat.clog 2 k
      · rw [if_pos hfull, if_neg (by positivity)]
        have h1 : 1 ≤ 2 ^ Nat.clog 2 k := Nat.one_le_two_pow
        have hsucc : (2 : Nat) ^ (Nat.clog 2 k + 1) = 2 ^ Nat.clog 2 k * 2 :=
          pow_succ 2 _
        have hle : Nat.clog 2 (k + 1) ≤ Nat.clog 2 k + 1 :=
          (Nat.le_pow_iff_clog_le hb).mp (by omega)
        have hge : Nat.clog 2 k + 1 ≤ Nat.clog 2 (k + 1) := by
          by_contra hlt
          have : k + 1 ≤ 2 ^ Nat.clog 2 k :=
            (Nat.le_pow_iff_clog_le hb).mpr (by omega)
          omega
        rw [le_antisymm hle hge, hsucc]
      · rw [if_neg hfull]
        have hle : Nat.clog 2 (k + 1) ≤ Nat.clog 2 k :=
          (Nat.le_pow_iff_clog_le hb).mp (by omega)
        have hge : Nat.clog 2 k ≤ Nat.clog 2 (k + 1) :=
          Nat.clog_mono_right 2 (by omega)
        rw [le_antisymm hle hge]

/-- C3: after `k ≥ 1` PushBack calls on a default-constructed vector,
`size == k`, `capacity ≥ k`, and the capacity is exactly the smallest
power of two that is `≥ k` (growth reserves `max(1, capacity * 2)`:
capacity 1 on the first growth from empty, then doubling). -/
theorem C3_pushback_doubling [Inhabited T] (v : T) (k : Nat) (hk : 1 ≤ k) :
    (pushN v k).GetSize = k ∧
    k ≤ (pushN v k).GetCapacity ∧
    (pushN v k).GetCapacity = 2 ^ Nat.clog 2 k ∧
    (∀ j : Nat, k ≤ 2 ^ j → (pushN v k).GetCapacity ≤ 2 ^ j) := by
  obtain ⟨hs, hc⟩ := pushN_state v k hk
  have hb : (1 : Nat) < 2 := by omega
  refine ⟨hs, ?_, hc, ?_⟩
  · show k ≤ (pushN v k).capacity_
    rw [hc]
    exact Nat.le_pow_clog hb k
  · intro j hj
    show (pushN v k).capacity_ ≤ 2 ^ j
    rw [hc]
    exact Nat.pow_le_pow_right (by omega) ((Nat.le_pow_iff_clog_le hb).mp hj)

/-- C3 witness: the theorem applied to five pushes of `0 : Int`
(size 5, capacity 8 = 2 ^ clog 2 5). -/
theorem C3_pushback_doubling_witness :
    (pushN (0 : Int) 5).GetSize = 5 ∧
    5 ≤ (pushN (0 : Int) 5).GetCapacity ∧
    (pushN (0 : Int) 5).GetCapacity = 2 ^ Nat.clog 2 5 ∧
    (∀ j : Nat, 5 ≤ 2 ^ j → (pushN (0 : Int) 5).GetCapacity ≤ 2 ^ j) :=
  C3_pushback_doubling 0 5 (by omega)

theorem fill_take (s1 : SimpleVector T) (n : Nat) [Inhabited T]
    (h1 : (buf s1).length = s1.capacity_) (h2 : s1.size_ ≤ s1.capacity_)
    (hn : s1.size_ ≤ n) :
    ((buf s1).take s1.size_ ++ List.replicate (n - s1.size_) default
      ++ (buf s1).drop n).take n
      = logical s1 ++ List.replicate (n - s1.size_) default := by
  have hAB : ((buf s1).take s1.size_
      ++ List.replicate (n - s1.size_) default).length = n := by
    simp only [List.length_append, List.length_take, List.length_replicate]
    omega
  rw [List.take_append_eq_append_take, hAB, Nat.sub_self, List.take_zero,
    List.append_nil, List.take_of_length_le (le_of_eq hAB)]
  rfl

/-- C4: `Resize(newSize)` sets the size to `newSize`; when
`newSize > capacity` it reserves exactly `newSize` (not the doubling
policy), otherwise the capacity is unchanged; the retained prefix
`[0, min(newSize, oldSize))` is preserved and the newly exposed slots
`[oldSize, newSize)` hold the default value. -/
theorem C4_resize [Inhabited T] (s : SimpleVector T) (n : Nat) (h : s.WF) :
    (s.Resize n).GetSize = n ∧
    (s.GetCapacity < n → (s.Resize n).GetCapacity = n) ∧
    (n ≤ s.GetCapacity → (s.Resize n).GetCapacity = s.GetCapacity) ∧
    logical (s.Resize n)
      = (logical s).take n ++ List.replicate (n - s.GetSize) default := by
  obtain ⟨hlen, hsz⟩ := h
  by_cases hc : s.capacity_ < n
  · obtain ⟨r1, r2, r3, w1, w2⟩ := Reserve_spec s n ⟨hlen, hsz⟩ hc
    have hsn : (s.Reserve n).size_ < n := by omega
    have hfill := fill_take (s.Reserve n) n w1 w2 (by omega)
    have hres : s.Resize n = ⟨some ((buf (s.Reserve n)).take (s.Reserve n).size_
        ++ List.replicate (n - (s.Reserve n).size_) default
        ++ (buf (s.Reserve n)).drop n), n, (s.Reserve n).capacity_⟩ := by
      unfold Resize
      simp only [if_pos hc, if_pos hsn]
    refine ⟨by rw [hres]; rfl, fun _ => by rw [hres]; exact r2,
      fun hle => absurd (show n ≤ s.capacity_ from hle) (by omega), ?_⟩
    show logical (s.Resize n)
      = (logical s).take n ++ List.replicate (n - s.size_) default
    rw [hres]
    show ((buf (s.Reserve n)).take (s.Reserve n).size_
      ++ List.replicate (n - (s.Reserve n).size_) default
      ++ (buf (s.Reserve n)).drop n).take n
      = (logical s).take n ++ List.replicate (n - s.size_) default
    rw [hfill, r1, r3,
      List.take_of_length_le (show (logical s).length ≤ n by
        rw [logical_length s ⟨hlen, hsz⟩]; omega)]
  · by_cases hn : s.size_ < n
    · have hfill := fill_take s n hlen hsz (by omega)
      have hres : s.Resize n = ⟨some ((buf s).take s.size_
          ++ List.replicate (n - s.size_) default ++ (buf s).drop n),
          n, s.capacity_⟩ := by
        unfold Resize
        simp only [if_neg hc, if_pos hn]
      refine ⟨by rw [hres]; rfl, fun hlt => absurd (show s.capacity_ < n from hlt) hc,
        fun _ => by rw [hres]; rfl, ?_⟩
      show logical (s.Resize n)
        = (logical s).take n ++ List.replicate (n - s.size_) default
      rw [hres]
      show ((buf s).take s.size_
        ++ List.replicate (n - s.size_) default ++ (buf s).drop n).take n
        = (logical s).take n ++ List.replicate (n - s.size_) default
      rw [hfill,
        List.take_of_length_le (show (logical s).length ≤ n by
          rw [logical_length s ⟨hlen, hsz⟩]; omega)]
    · have hres : s.Resize n = ⟨s.ptr_, n, s.capacity_⟩ := by
        unfold Resize
        simp only [if_neg hc, if_neg hn]
      refine ⟨by rw [hres]; rfl, fun hlt => absurd (show s.capacity_ < n from hlt) hc,
        fun _ => by rw [hres]; rfl, ?_⟩
      show logical (s.Resize n)
        = (logical s).take n ++ List.replicate (n - s.size_) default
      rw [hres]
      show (buf s).take n
        = ((buf s).take s.size_).take n ++ List.replicate (n - s.size_) default
      have hrep : n - s.size_ = 0 := by omega
      rw [hrep, List.replicate_zero, List.append_nil, List.take_take]
      have hmin : min n s.size_ = n := by omega
      rw [hmin]

/-- C4 witness: the theorem applied to `{1, 2, 3, 4}` resized to 6
(growing past the capacity). -/
theorem C4_resize_witness :
    ((ofList ([1, 2, 3, 4] : List Int)).Resize 6).GetSize = 6 ∧
    ((ofList ([1, 2, 3, 4] : List Int)).GetCapacity < 6 →
      ((ofList ([1, 2, 3, 4] : List Int)).Resize 6).GetCapacity = 6) ∧
    (6 ≤ (ofList ([1, 2, 3, 4] : List Int)).GetCapacity →
      ((ofList ([1, 2, 3, 4] : List Int)).Resize 6).GetCapacity
        = (ofList ([1, 2, 3, 4] : List Int)).GetCapacity) ∧
    logical ((ofList ([1, 2, 3, 4] : List Int)).Resize 6)
      = (logical (ofList ([1, 2, 3, 4] : List Int))).take 6
        ++ List.replicate (6 - (ofList ([1, 2, 3, 4] : List Int)).GetSize) default :=
  C4_resize (ofList [1, 2, 3, 4]) 6 (WF_ofList _)

theorem Insert_spec [Inhabited T] (s : SimpleVector T) (p : Nat) (v : T)
    (h : s.WF) (hp : p ≤ s.size_) :
    logical (s.Insert p v) = (logical s).take p ++ v :: (logical s).drop p ∧
    (s.Insert p v).size_ = s.size_ + 1 ∧
    (s.Insert p v).WF := by
  obtain ⟨g1, g2, g3, g4⟩ := grow_spec s h
  obtain ⟨gl, gc⟩ := g4
  have hins : s.Insert p v = ⟨some (((buf (grow s)).take p ++ v ::
      ((buf (grow s)).drop p).take (s.size_ - p)) ++ (buf (grow s)).drop (s.size_ + 1)),
      s.size_ + 1, (grow s).capacity_⟩ := rfl
  have hlog : logical s = (buf (grow s)).take s.size_ := by
    rw [← g3]
    show (buf (grow s)).take (grow s).size_ = (buf (grow s)).take s.size_
    rw [g1]
  have hrtake : (logical s).take p = (buf (grow s)).take p := by
    rw [hlog, List.take_take]
    congr 1
    omega
  have hrdrop : (logical s).drop p
      = ((buf (grow s)).drop p).take (s.size_ - p) := by
    rw [hlog, List.drop_take]
  have hAM : ((buf (grow s)).take p ++ v ::
      ((buf (grow s)).drop p).take (s.size_ - p)).length = s.size_ + 1 := by
    simp only [List.length_append, List.length_cons, List.length_take,
      List.length_drop]
    omega
  refine ⟨?_, rfl, ?_, ?_⟩
  · show logical (s.Insert p v)
      = (logical s).take p ++ v :: (logical s).drop p
    rw [hins]
    show ((((buf (grow s)).take p ++ v ::
      ((buf (grow s)).drop p).take (s.size_ - p)) ++ (buf (grow s)).drop (s.size_ + 1))).take (s.size_ + 1)
      = (logical s).take p ++ v :: (logical s).drop p
    rw [List.take_append_eq_append_take, hAM, Nat.sub_self, List.take_zero,
      List.append_nil, List.take_of_length_le (le_of_eq hAM), hrtake, hrdrop]
  · show ((((buf (grow s)).take p ++ v ::
      ((buf (grow s)).drop p).take (s.size_ - p)) ++ (buf (grow s)).drop (s.size_ + 1))).length
      = (grow s).capacity_
    simp only [List.length_append, List.length_cons, List.length_take,
      List.length_drop]
    omega
  · show s.size_ + 1 ≤ (grow s).capacity_
    exact g2

theorem Erase_spec [Inhabited T] (s : SimpleVector T) (p : Nat)
    (h : s.WF) (hp : p < s.size_) :
    logical (s.Erase p) = (logical s).take p ++ (logical s).drop (p + 1) ∧
    (s.Erase p).size_ = s.size_ - 1 := by
  obtain ⟨h1, h2⟩ := h
  have hrtake : (logical s).take p = (buf s).take p := by
    show ((buf s).take s.size_).take p = (buf s).take p
    rw [List.take_take]
    congr 1
    omega
  have hrdrop : (logical s).drop (p + 1)
      = ((buf s).drop (p + 1)).take (s.size_ - 1 - p) := by
    show ((buf s).take s.size_).drop (p + 1) = _
    rw [List.drop_take]
    congr 1
    omega
  have hAM : ((buf s).take p
      ++ ((buf s).drop (p + 1)).take (s.size_ - 1 - p)).length = s.size_ - 1 := by
    simp only [List.length_append, List.length_take, List.length_drop]
    omega
  refine ⟨?_, rfl⟩
  show (((buf s).take p ++ ((buf s).drop (p + 1)).take (s.size_ - 1 - p))
      ++ (buf s).drop (s.size_ - 1)).take (s.size_ - 1)
    = (logical s).take p ++ (logical s).drop (p + 1)
  rw [List.take_append_eq_append_take, hAM, Nat.sub_self, List.take_zero,
    List.append_nil, List.take_of_length_le (le_of_eq hAM), hrtake, hrdrop]

/-- C6: inserting any value `v` at any valid position `p ∈ [0, size]` and
then erasing at `p` restores the original logical element sequence and the
original size (`Insert` shifts `[p, size)` right and writes `v` at `p`;
`Erase` shifts the cells after `p` left again). -/
theorem C6_insert_erase_roundtrip [Inhabited T] (s : SimpleVector T) (p : Nat)
    (v : T) (h : s.WF) (hp : p ≤ s.GetSize) :
    logical ((s.Insert p v).Erase p) = logical s ∧
    ((s.Insert p v).Erase p).GetSize = s.GetSize := by
  have hp2 : p ≤ s.size_ := hp
  obtain ⟨i1, i2, i3⟩ := Insert_spec s p v h hp2
  obtain ⟨e1, e2⟩ := Erase_spec (s.Insert p v) p i3 (by omega)
  have hl : (logical s).length = s.size_ := logical_length s h
  have hA : ((logical s).take p).length = p := by
    simp only [List.length_take]
    omega
  constructor
  · rw [e1, i1, List.take_append_eq_append_take, hA, Nat.sub_self,
      List.take_zero, List.append_nil,
      List.take_of_length_le (le_of_eq hA),
      List.drop_append_eq_append_drop,
      List.drop_eq_nil_of_le (by omega),
      List.nil_append]
    have hone : p + 1 - ((logical s).take p).length = 1 := by omega
    rw [hone]
    show (logical s).take p ++ (logical s).drop p = logical s
    exact List.take_append_drop _ _
  · show ((s.Insert p v).Erase p).size_ = s.size_
    omega

/-- C6 witness: the theorem applied to `{1, 2, 3}` with `v = 99` inserted
and erased at position 1. -/
theorem C6_insert_erase_roundtrip_witness :
    logical (((ofList ([1, 2, 3] : List Int)).Insert 1 99).Erase 1)
      = logical (ofList ([1, 2, 3] : List Int)) ∧
    (((ofList ([1, 2, 3] : List Int)).Insert 1 99).Erase 1).GetSize
      = (ofList ([1, 2, 3] : List Int)).GetSize :=
  C6_insert_erase_roundtrip (ofList [1, 2, 3]) 1 99 (WF_ofList _) (by decide)

/-- C7: copy construction and copy assignment produce an independent
container with `capacity == size == source.GetSize()` (spare source
capacity is dropped) and element-wise equal contents; pushing onto the
copy afterwards only changes the copy (the source value is untouched by
construction in this state model), giving the literal scenario
`a = {1,2,3}; b = a; b.PushBack(4)` sizes 3 and 4. -/
theorem C7_copy_deep_independent [Inhabited T] (s t : SimpleVector T) (v : T)
    (h : s.WF) :
    (copyCtor s).GetSize = s.GetSize ∧
    (copyCtor s).GetCapacity = s.GetSize ∧
    logical (copyCtor s) = logical s ∧
    (copyAssign t s).GetSize = s.GetSize ∧
    (copyAssign t s).GetCapacity = s.GetSize ∧
    logical (copyAssign t s) = logical s ∧
    ((copyCtor s).PushBack v).GetSize = s.GetSize + 1 ∧
    logical ((copyCtor s).PushBack v) = logical s ++ [v] := by
  obtain ⟨c1, c2, c3, c4⟩ := copyCtor_spec s h
  obtain ⟨p1, p2, p3⟩ := PushBack_spec (copyCtor s) v c4
  have hca : copyAssign t s = copyCtor s := rfl
  refine ⟨c2, c3, c1, ?_, ?_, ?_, ?_, ?_⟩
  · rw [hca]
    exact c2
  · rw [hca]
    exact c3
  · rw [hca]
    exact c1
  · show ((copyCtor s).PushBack v).size_ = s.size_ + 1
    rw [p2, c2]
  · rw [p1, c1]

/-- C7 witness: the theorem applied to `a = {1, 2, 3}` (copied, and with
`4` pushed onto the copy). -/
theorem C7_copy_deep_independent_witness :
    (copyCtor (ofList ([1, 2, 3] : List Int))).GetSize
      = (ofList ([1, 2, 3] : List Int)).GetSize ∧
    (copyCtor (ofList ([1, 2, 3] : List Int))).GetCapacity
      = (ofList ([1, 2, 3] : List Int)).GetSize ∧
    logical (copyCtor (ofList ([1, 2, 3] : List Int)))
      = logical (ofList ([1, 2, 3] : List Int)) ∧
    (copyAssign (empty Int) (ofList ([1, 2, 3] : List Int))).GetSize
      = (ofList ([1, 2, 3] : List Int)).GetSize ∧
    (copyAssign (empty Int) (ofList ([1, 2, 3] : List Int))).GetCapacity
      = (ofList ([1, 2, 3] : List Int)).GetSize ∧
    logical (copyAssign (empty Int) (ofList ([1, 2, 3] : List Int)))
      = logical (ofList ([1, 2, 3] : List Int)) ∧
    ((copyCtor (ofList ([1, 2, 3] : List Int))).PushBack 4).GetSize
      = (ofList ([1, 2, 3] : List Int)).GetSize + 1 ∧
    logical ((copyCtor (ofList ([1, 2, 3] : List Int))).PushBack 4)
      = logical (ofList ([1, 2, 3] : List Int)) ++ [4] :=
  C7_copy_deep_independent (ofList [1, 2, 3]) (empty Int) 4 (WF_ofList _)

theorem lexLt_iff {α : Type} [LinearOrder α] (l₁ l₂ : List α) :
    lexLt l₁ l₂ = true ↔ List.Lex (fun x y : α => x < y) l₁ l₂ := by
  induction l₁ generalizing l₂ with
  | nil =>
    cases l₂ with
    | nil =>
      simp only [lexLt]
      constructor
      · intro hh
        exact nomatch hh
      · intro hlex
        exact nomatch hlex
    | cons b bs =>
      simp only [lexLt]
      constructor
      · intro _
        exact List.Lex.nil
      · intro _
        trivial
  | cons a as ih =>
    cases l₂ with
    | nil =>
      simp only [lexLt]
      constructor
      · intro hh
        exact nomatch hh
      · intro hlex
        exact nomatch hlex
    | cons b bs =>
      simp only [lexLt]
      by_cases hab : a < b
      · rw [if_pos hab]
        exact ⟨fun _ => List.Lex.rel hab, fun _ => rfl⟩
      · rw [if_neg hab]
        by_cases hba : b < a
        · rw [if_pos hba]
          constructor
          · intro hh
            exact nomatch hh
          · intro hlex
            cases hlex with
            | rel hr => exact absurd hr hab
            | cons ht => exact absurd hba (lt_irrefl _)
        · rw [if_neg hba]
          have hb : a = b := le_antisymm (not_lt.mp hba) (not_lt.mp hab)
          subst hb
          rw [ih bs]
          constructor
          · exact fun hl => List.Lex.cons hl
          · intro hlex
            cases hlex with
            | rel hr => exact absurd hr hab
            | cons ht => exact ht

/-- C9: `operator==` holds exactly on equal sizes with element-wise equal
logical contents (hence it is reflexive and symmetric); `operator<` holds
exactly when the left logical sequence is lexicographically less; the
derived operators satisfy the source identities `!= ↔ !(==)`,
`<= ↔ !(rhs < lhs)`, `> ↔ !(<=)`, `>= ↔ !(<)`; and the spec's literal
examples on `{1,2,3}`, `{1,2}`, `{1,2,4}` evaluate as stated. -/
theorem C9_comparison_operators :
    (∀ (α : Type) [DecidableEq α] (a b : SimpleVector α),
      eqOp a b = true ↔ (a.GetSize = b.GetSize ∧ logical a = logical b)) ∧
    (∀ (α : Type) [DecidableEq α] (a : SimpleVector α), eqOp a a = true) ∧
    (∀ (α : Type) [DecidableEq α] (a b : SimpleVector α),
      eqOp a b = eqOp b a) ∧
    (∀ (α : Type) [LinearOrder α] (a b : SimpleVector α),
      ltOp a b = true ↔ List.Lex (fun x y : α => x < y) (logical a) (logical b)) ∧
    (∀ (α : Type) [DecidableEq α] (a b : SimpleVector α),
      neOp a b = !(eqOp a b)) ∧
    (∀ (α : Type) [LinearOrder α] (a b : SimpleVector α),
      leOp a b = !(ltOp b a)) ∧
    (∀ (α : Type) [LinearOrder α] (a b : SimpleVector α),
      gtOp a b = !(leOp a b)) ∧
    (∀ (α : Type) [LinearOrder α] (a b : SimpleVector α),
      geOp a b = !(ltOp a b)) ∧
    eqOp (ofList ([1, 2, 3] : List Int)) (ofList [1, 2, 3]) = true ∧
    neOp (ofList ([1, 2, 3] : List Int)) (ofList [1, 2]) = true ∧
    ltOp (ofList ([1, 2, 3] : List Int)) (ofList [1, 2, 4]) = true ∧
    ltOp (ofList ([1, 2] : List Int)) (ofList [1, 2, 3]) = true := by
  have heq : ∀ (α : Type) [DecidableEq α] (a b : SimpleVector α),
      eqOp a b = true ↔ (a.GetSize = b.GetSize ∧ logical a = logical b) := by
    intro α _ a b
    simp [eqOp, Bool.and_eq_true]
  refine ⟨heq, ?_, ?_, ?_, fun α _ a b => rfl, fun α _ a b => rfl,
    fun α _ a b => rfl, fun α _ a b => rfl, by decide, by decide, by decide,
    by decide⟩
  · intro α _ a
    rw [heq]
    exact ⟨rfl, rfl⟩
  · intro α _ a b
    rw [Bool.eq_iff_iff, heq, heq]
    constructor
    · rintro ⟨x, y⟩
      exact ⟨x.symm, y.symm⟩
    · rintro ⟨x, y⟩
      exact ⟨x.symm, y.symm⟩
  · intro α _ a b
    exact lexLt_iff (logical a) (logical b)

/-- C10 witness: the theorem applied to `v = {1, 2, 3}`. -/
theorem C10_self_assignment_safe_witness :
    logical (copyAssign (ofList ([1, 2, 3] : List Int)) (ofList [1, 2, 3]))
      = logical (ofList ([1, 2, 3] : List Int)) ∧
    (copyAssign (ofList ([1, 2, 3] : List Int)) (ofList [1, 2, 3])).GetSize
      = (ofList ([1, 2, 3] : List Int)).GetSize ∧
    (copyAssign (ofList ([1, 2, 3] : List Int)) (ofList [1, 2, 3])).GetCapacity
      = (ofList ([1, 2, 3] : List Int)).GetSize :=
  C10_self_assignment_safe (ofList [1, 2, 3]) (WF_ofList _)

end SimpleVector

/-- C8: `Release()` extracts the raw handle unchanged (the allocation is
not freed by `Release`), resets the buffer to the empty (null) state, and
a subsequent run of the destructor on that buffer frees nothing, so the
allocation is released at most once. -/
theorem C8_release_then_destroy_is_noop (T : Type) (p : ArrayPtr T) :
    (p.Release).1 = p.raw_ptr_ ∧
    (p.Release).2 = ⟨none⟩ ∧
    ((p.Release).2).destroyFrees = [] :=
  ⟨rfl, rfl, rfl⟩

end CppSimpleVector
